import Mathlib

/-!
Verification of the windowed rate-counter / moving-average engine.

The Go source (`ratecounter.go`, `moving_average.go`) is shallowly embedded:
`int64` values become `Int`, the bucket arrays become `List Int`, the
`time.Duration` interval becomes an `Int` (nanoseconds), and the background
rotation goroutine becomes an explicit `rotate` step on the state.  A
constructor returns the freshly built structure together with a `Bool`
recording whether a rotation task was started (the Go code conditionally
spawns a goroutine).  Sequential executions interleaving `Add` calls and
rotation ticks are modelled as lists of operations folded over the state.
Go's truncating integer division (`/` on `int64`) is `Int.tdiv`.
-/

/-- Mirrors `const DefaultGranularity = 32` from `handlerfunc.go`. -/
def DefaultGranularity : Int := 32

/-- Fuelled digit extraction; with fuel at least `n` it yields the
little-endian base-10 digits of `n`. -/
def natDigitsGo : Nat → Nat → List Nat
  | 0, _ => []
  | fuel + 1, n => if n = 0 then [] else n % 10 :: natDigitsGo fuel (n / 10)

/-- Little-endian base-10 digits of a natural number; empty for `0`. -/
def natDigitsLE (n : Nat) : List Nat :=
  natDigitsGo n n

/-- The character for a single decimal digit. -/
def digitChar (d : Nat) : Char :=
  Char.ofNat (48 + d)

/-- Decimal rendering of a natural number, most significant digit first,
as `strconv` produces it: `"0"` for zero, otherwise no leading zeros. -/
def formatNatChars (n : Nat) : List Char :=
  if n = 0 then ['0'] else ((natDigitsLE n).reverse).map digitChar

/-- Embeds `strconv.FormatInt(v, 10)`: optional leading minus sign followed
by the decimal digits of the absolute value. -/
def FormatInt (v : Int) : String :=
  if v < 0 then String.mk ('-' :: formatNatChars (-v).toNat)
  else String.mk (formatNatChars v.toNat)

/-- Is `c` a decimal digit character. -/
def isDigitChar (c : Char) : Bool :=
  48 ≤ c.toNat && c.toNat ≤ 57

/-- Numeric value of a big-endian digit-character list. -/
def digitsVal (l : List Char) : Nat :=
  l.foldl (fun a c => a * 10 + (c.toNat - 48)) 0

/-- Numeric value of a little-endian digit list. -/
def ofDigitsLE (l : List Nat) : Nat :=
  l.foldr (fun d acc => d + 10 * acc) 0

/-- Parses a non-empty all-digit character list as a natural number. -/
def parseNatChars (l : List Char) : Option Nat :=
  if l ≠ [] ∧ l.all isDigitChar then some (digitsVal l) else none

/-- Base-10 integer parser (the consumer's view of `strconv.ParseInt`):
an optional leading minus sign then at least one decimal digit. -/
def parseIntStr (s : String) : Option Int :=
  match s.data with
  | [] => none
  | c :: rest =>
    if c = '-' then (parseNatChars rest).map (fun n => -Int.ofNat n)
    else (parseNatChars (c :: rest)).map Int.ofNat

/-- A non-empty digit run with no redundant leading zero. -/
def decBody : List Char → Bool
  | [] => false
  | c :: rest => isDigitChar c && rest.all isDigitChar && (c ≠ '0' || rest.isEmpty)

/-- A canonical decimal rendering: optionally a minus sign (never before a
zero), then at least one digit, with no leading zero — in particular never
empty, never a bare sign, never scientific notation. -/
def isCanonicalDecimal (l : List Char) : Bool :=
  match l with
  | [] => false
  | c :: rest =>
    if c = '-' then decBody rest && rest ≠ ['0']
    else decBody (c :: rest)

/-- State of `RateCounter` from `ratecounter.go`: carried-over aggregate
`others`, the bucket ring `bins`, and the active index. -/
structure RateCounter where
  others : Int
  bins : List Int
  index : Nat
deriving DecidableEq, Repr

/-- Embeds `NewRateCounterWithGranularity`.  The second component records
whether the rotation goroutine was spawned (`true` exactly in the
non-degenerate branch). -/
def NewRateCounterWithGranularity (interval : Int) (gran : Int) : RateCounter × Bool :=
  if interval ≤ 0 ∨ gran ≤ 1 then
    ({ others := 0, bins := [0], index := 0 }, false)
  else
    ({ others := 0, bins := List.replicate gran.toNat 0, index := 0 }, true)

/-- Embeds `NewCounter`: `NewRateCounterWithGranularity(0, 1)`. -/
def NewCounter : RateCounter × Bool :=
  NewRateCounterWithGranularity 0 1

/-- Embeds `NewRateCounter`: uses `DefaultGranularity`. -/
def NewRateCounter (interval : Int) : RateCounter × Bool :=
  NewRateCounterWithGranularity interval DefaultGranularity

/-- Embeds `RateCounter.Add`: atomically add `val` into `bins[index]`. -/
def RateCounter.Add (r : RateCounter) (val : Int) : RateCounter :=
  { r with bins := r.bins.set r.index (r.bins.getD r.index 0 + val) }

/-- Embeds `RateCounter.Rate`: `others + bins[index]`. -/
def RateCounter.Rate (r : RateCounter) : Int :=
  r.others + r.bins.getD r.index 0

/-- One iteration of the rotation goroutine body in
`NewRateCounterWithGranularity`:
`i = index; index = (index+1) % gran; others += bins[i] - swap(bins[index], 0)`.
The read of `bins[i]` is performed after the swap has cleared the new
active bucket. -/
def RateCounter.rotate (r : RateCounter) : RateCounter :=
  let i := r.index
  let idx := (r.index + 1) % r.bins.length
  let v := r.bins.getD idx 0
  let bins := r.bins.set idx 0
  { others := r.others + (bins.getD i 0 - v), bins := bins, index := idx }

/-- The specification's four-step tick procedure: remember `i`, advance the
index, swap the new active bucket to zero obtaining `v`, then fold
`buckets[i]`'s value from before the swap, minus `v`, into the carry. -/
def RateCounter.rotateSpec (r : RateCounter) : RateCounter :=
  let i := r.index
  let idx := (r.index + 1) % r.bins.length
  let before := r.bins.getD i 0
  let v := r.bins.getD idx 0
  { others := r.others + (before - v), bins := r.bins.set idx 0, index := idx }

/-- Embeds `RateCounter.String`: `strconv.FormatInt(r.Rate(), 10)`. -/
def RateCounter.String (r : RateCounter) : String :=
  FormatInt r.Rate

/-- State of `MovingAverage` from `moving_average.go`. -/
structure MovingAverage where
  otherSums : Int
  otherCounts : Int
  sums : List Int
  counts : List Int
  index : Nat
deriving DecidableEq, Repr

/-- Embeds `NewMovingAverageWithGranularity`; the `Bool` records whether the
rotation goroutine was spawned. -/
def NewMovingAverageWithGranularity (interval : Int) (gran : Int) : MovingAverage × Bool :=
  if interval ≤ 0 ∨ gran ≤ 1 then
    ({ otherSums := 0, otherCounts := 0, sums := [0], counts := [0], index := 0 }, false)
  else
    ({ otherSums := 0, otherCounts := 0,
       sums := List.replicate gran.toNat 0, counts := List.replicate gran.toNat 0,
       index := 0 }, true)

/-- Embeds `NewAverage`: `NewMovingAverageWithGranularity(0, 1)`. -/
def NewAverage : MovingAverage × Bool :=
  NewMovingAverageWithGranularity 0 1

/-- Embeds `NewMovingAverage`: uses `DefaultGranularity`. -/
def NewMovingAverage (interval : Int) : MovingAverage × Bool :=
  NewMovingAverageWithGranularity interval DefaultGranularity

/-- Embeds `MovingAverage.Add`: add `val` to `sums[index]` and `1` to
`counts[index]`. -/
def MovingAverage.Add (r : MovingAverage) (val : Int) : MovingAverage :=
  { r with
    sums := r.sums.set r.index (r.sums.getD r.index 0 + val)
    counts := r.counts.set r.index (r.counts.getD r.index 0 + 1) }

/-- Embeds `MovingAverage.Average`:
`s := sums[index]; n := counts[index]; s += otherSums; n += otherCounts;`
`if n == 0 return 0; return s / n` (Go's truncating division). -/
def MovingAverage.Average (r : MovingAverage) : Int :=
  let s := r.sums.getD r.index 0
  let n := r.counts.getD r.index 0
  let s := s + r.otherSums
  let n := n + r.otherCounts
  if n = 0 then 0 else s.tdiv n

/-- One iteration of the rotation goroutine body in
`NewMovingAverageWithGranularity`: the sums cell and the counts cell of the
new active bucket are swapped to zero, then `sums[i]` and `counts[i]` are
read (after those swaps) and folded into the carries. -/
def MovingAverage.rotate (r : MovingAverage) : MovingAverage :=
  let i := r.index
  let idx := (r.index + 1) % r.sums.length
  let s := r.sums.getD idx 0
  let sums := r.sums.set idx 0
  let n := r.counts.getD idx 0
  let counts := r.counts.set idx 0
  { otherSums := r.otherSums + (sums.getD i 0 - s)
    otherCounts := r.otherCounts + (counts.getD i 0 - n)
    sums := sums, counts := counts, index := idx }

/-- The specification's four-step tick procedure for the averaging variant:
the vacated bucket's pre-swap values are folded into the carries. -/
def MovingAverage.rotateSpec (r : MovingAverage) : MovingAverage :=
  let i := r.index
  let idx := (r.index + 1) % r.sums.length
  let beforeS := r.sums.getD i 0
  let beforeN := r.counts.getD i 0
  let s := r.sums.getD idx 0
  let n := r.counts.getD idx 0
  { otherSums := r.otherSums + (beforeS - s)
    otherCounts := r.otherCounts + (beforeN - n)
    sums := r.sums.set idx 0, counts := r.counts.set idx 0, index := idx }

/-- Embeds `MovingAverage.String`: `strconv.FormatInt(r.Average(), 10)`. -/
def MovingAverage.String (r : MovingAverage) : String :=
  FormatInt r.Average

/-- A sequential-model operation on a counter: an `Add` call by some
producer, or one tick of the rotation task. -/
inductive Op where
  | add (v : Int)
  | tick
deriving DecidableEq, Repr

/-- Apply one operation to a `RateCounter`. -/
def RateCounter.step (r : RateCounter) : Op → RateCounter
  | .add v => r.Add v
  | .tick => r.rotate

/-- Run a sequence of operations on a `RateCounter`, left to right. -/
def runOps (r : RateCounter) (ops : List Op) : RateCounter :=
  ops.foldl RateCounter.step r

/-- Segment bookkeeping: the list of per-tick-segment delta sums, most
recent segment first.  An `Add` lands in the current (head) segment, a
tick opens a fresh empty segment. -/
def applySeg (segs : List Int) : Op → List Int
  | .add v =>
    match segs with
    | [] => [v]
    | s :: rest => (s + v) :: rest
  | .tick => 0 :: segs

/-- Segments of an operation sequence, most recent first. -/
def segsOf (ops : List Op) : List Int :=
  ops.foldl applySeg [0]

/-- Sum of the deltas added during the most recent `g` rotation-tick
segments of the run (all of them when fewer than `g` ticks occurred). -/
def windowSum (g : Nat) (ops : List Op) : Int :=
  ((segsOf ops).take g).sum

/-- A sequence of `Add` calls on a `MovingAverage`, left to right. -/
def addList (r : MovingAverage) (vs : List Int) : MovingAverage :=
  vs.foldl MovingAverage.Add r

/-- One elapsed timer period on a constructed counter: the rotation
goroutine fires exactly when it was spawned; otherwise nothing happens. -/
def rcTimeStep (p : RateCounter × Bool) : RateCounter × Bool :=
  if p.2 then (p.1.rotate, p.2) else p

/-- The ring-rotation invariant tying a `RateCounter` state to the segment
history `segs` (most recent first) of the run that produced it: the ring has
`g` buckets, the active index tracks the tick count, bucket
`(ticks + g - k) % g` holds exactly segment `k`, and the carry `others` is
the sum of segments `1 .. g-1`. -/
def RCInv (g : Nat) (segs : List Int) (r : RateCounter) : Prop :=
  r.bins.length = g ∧
  segs ≠ [] ∧
  r.index = (segs.length - 1) % g ∧
  (∀ k, k < g → r.bins.getD ((segs.length - 1 + g - k) % g) 0 = segs.getD k 0) ∧
  r.others = ((segs.drop 1).take (g - 1)).sum

/-- The freshly constructed windowed counter state with `g` buckets. -/
def freshRC (g : Nat) : RateCounter :=
  { others := 0, bins := List.replicate g 0, index := 0 }

/-- The fuel argument is irrelevant once it dominates the input. -/
theorem natDigitsGo_eq (fuel₁ : Nat) : ∀ fuel₂ n, n ≤ fuel₁ → n ≤ fuel₂ →
    natDigitsGo fuel₁ n = natDigitsGo fuel₂ n := by
  induction fuel₁ with
  | zero =>
    intro fuel₂ n h₁ _
    have hn : n = 0 := by omega
    subst hn
    cases fuel₂ with
    | zero => rfl
    | succ f => simp [natDigitsGo]
  | succ f ih =>
    intro fuel₂ n h₁ h₂
    by_cases hn : n = 0
    · subst hn
      cases fuel₂ with
      | zero => rfl
      | succ f2 => simp [natDigitsGo]
    · cases fuel₂ with
      | zero => omega
      | succ f2 =>
        simp only [natDigitsGo, if_neg hn]
        have hdiv : n / 10 < n := Nat.div_lt_self (Nat.pos_of_ne_zero hn) (by decide)
        rw [ih f2 (n / 10) (by omega) (by omega)]

/-- The recurrence satisfied by `natDigitsLE`. -/
theorem natDigitsLE_eq (n : Nat) :
    natDigitsLE n = if n = 0 then [] else n % 10 :: natDigitsLE (n / 10) := by
  by_cases hn : n = 0
  · subst hn
    rfl
  · cases n with
    | zero => exact absurd rfl hn
    | succ m =>
      simp only [natDigitsLE, natDigitsGo, if_neg hn]
      have hdiv : (m + 1) / 10 < m + 1 := Nat.div_lt_self (by omega) (by decide)
      rw [natDigitsGo_eq m ((m + 1) / 10) ((m + 1) / 10) (by omega) (by omega)]

/-- `getD` of an all-zero ring is zero at every position. -/
theorem getD_replicate_zero (g j : Nat) : (List.replicate g (0 : Int)).getD j 0 = 0 := by
  induction g generalizing j with
  | zero => simp [List.getD]
  | succ g ih =>
    cases j with
    | zero => simp [List.replicate_succ]
    | succ j =>
      simp only [List.replicate_succ, List.getD_cons_succ]
      exact ih j

/-- Setting one position leaves `getD` at a different position unchanged. -/
theorem getD_set_ne (l : List Int) (i j : Nat) (h : i ≠ j) (v d : Int) :
    (l.set i v).getD j d = l.getD j d := by
  simp [List.getD_eq_getElem?_getD, List.getElem?_set_ne h]

/-- `getD` after setting the same in-range position yields the new value. -/
theorem getD_set_eq (l : List Int) (i : Nat) (h : i < l.length) (v d : Int) :
    (l.set i v).getD i d = v := by
  simp [List.getD_eq_getElem?_getD, List.getElem?_set_self, h]

/-- Taking one more element appends exactly `getD` at the next index. -/
theorem sum_take_succ (l : List Int) (n : Nat) :
    (l.take (n + 1)).sum = (l.take n).sum + l.getD n 0 := by
  induction l generalizing n with
  | nil => simp [List.getD]
  | cons a t ih =>
    cases n with
    | zero => simp [List.getD]
    | succ n =>
      simp only [List.take_succ_cons, List.sum_cons, ih n]
      simp [List.getD]
      ring

/-- Decomposition of a prefix sum used by the rotation-fold argument:
the first `n` elements sum to the head, plus elements `1..n`, minus the
element at index `n`. -/
theorem sum_take_shift (l : List Int) (n : Nat) :
    (l.take n).sum = l.getD 0 0 + ((l.drop 1).take n).sum - l.getD n 0 := by
  cases l with
  | nil => simp [List.getD]
  | cons a t =>
    cases n with
    | zero => simp [List.getD]
    | succ n =>
      simp only [List.take_succ_cons, List.sum_cons, List.drop_succ_cons, List.drop_zero]
      have := sum_take_succ t n
      simp only [List.getD_cons_succ, List.getD_cons_zero]
      omega

/-- Peeling the head off a prefix sum. -/
theorem sum_take_head (l : List Int) (n : Nat) :
    (l.take (n + 1)).sum = l.getD 0 0 + ((l.drop 1).take n).sum := by
  cases l with
  | nil => simp [List.getD]
  | cons a t => simp [List.getD]

/-- Two ring positions `(m + g - k) % g` with distinct offsets `k, k' < g`
are distinct. -/
theorem ringPos_inj (g m : Nat) {k k' : Nat} (hk : k < g) (hk' : k' < g)
    (h : (m + g - k) % g = (m + g - k') % g) : k = k' := by
  have hd : (g : ℤ) ∣ ((m + g - k' : Nat) : ℤ) - ((m + g - k : Nat) : ℤ) := Nat.ModEq.dvd h
  have h1 : ((m + g - k' : Nat) : ℤ) = (m : ℤ) + g - k' := by omega
  have h2 : ((m + g - k : Nat) : ℤ) = (m : ℤ) + g - k := by omega
  rw [h1, h2] at hd
  have h3 : ((m : ℤ) + g - k') - ((m : ℤ) + g - k) = (k : ℤ) - k' := by ring
  rw [h3] at hd
  have h0 := Int.eq_zero_of_abs_lt_dvd hd (by rw [abs_lt]; constructor <;> omega)
  omega

/-- The fresh state satisfies the invariant with a single empty segment. -/
theorem rcinv_init (g : Nat) : RCInv g [0] (freshRC g) := by
  refine ⟨List.length_replicate g 0, by simp, by simp [freshRC], ?_, by simp [freshRC]⟩
  intro k hk
  simp only [freshRC]
  rw [getD_replicate_zero]
  cases k with
  | zero => rfl
  | succ k => rfl

/-- `Add` preserves the ring-rotation invariant, updating the current
segment. -/
theorem rcinv_add (g : Nat) (hg : 2 ≤ g) (segs : List Int) (r : RateCounter) (v : Int)
    (h : RCInv g segs r) : RCInv g (applySeg segs (Op.add v)) (r.Add v) := by
  obtain ⟨hlen, hne, hidx, hbins, hoth⟩ := h
  obtain ⟨s, rest, rfl⟩ : ∃ s rest, segs = s :: rest := by
    cases segs with
    | nil => exact absurd rfl hne
    | cons a t => exact ⟨a, t, rfl⟩
  have hg0 : 0 < g := by omega
  have hidx' : r.index = rest.length % g := by simpa using hidx
  have hbins' : ∀ k, k < g → r.bins.getD ((rest.length + g - k) % g) 0 = (s :: rest).getD k 0 := by
    intro k hk
    have := hbins k hk
    simpa using this
  have hposz : (rest.length + g - 0) % g = r.index := by
    rw [hidx']
    simp [Nat.add_mod_right]
  have hlt : r.index < r.bins.length := by
    rw [hidx', hlen]
    exact Nat.mod_lt _ hg0
  refine ⟨by simp [RateCounter.Add, hlen], by simp [applySeg], by simp [applySeg, RateCounter.Add, hidx'], ?_, ?_⟩
  · intro k hk
    simp only [applySeg, List.length_cons, Nat.add_sub_cancel]
    cases k with
    | zero =>
      have hpos : (rest.length + g - 0) % g = r.index := hposz
      simp only [Nat.sub_zero] at hpos ⊢
      rw [RateCounter.Add, hpos]
      rw [getD_set_eq r.bins r.index hlt]
      have h0 := hbins' 0 hg0
      simp only [Nat.sub_zero] at h0
      rw [hpos] at h0
      rw [h0]
      simp
    | succ k =>
      have hne2 : (rest.length + g - (k + 1)) % g ≠ r.index := by
        intro hcontra
        rw [← hposz] at hcontra
        have := ringPos_inj g rest.length hk hg0 hcontra
        omega
      rw [RateCounter.Add]
      simp only
      rw [getD_set_ne r.bins r.index _ (fun he => hne2 he.symm)]
      have := hbins' (k + 1) hk
      simpa using this
  · simp only [applySeg, RateCounter.Add, List.drop_succ_cons, List.drop_zero] at hoth ⊢
    exact hoth

/-- A rotation tick preserves the ring-rotation invariant, opening a fresh
segment: the new active bucket is cleared, the vacated bucket's value
enters the carry, and the bucket from `g` ticks ago leaves it. -/
theorem rcinv_tick (g : Nat) (hg : 2 ≤ g) (segs : List Int) (r : RateCounter)
    (h : RCInv g segs r) : RCInv g (applySeg segs Op.tick) r.rotate := by
  obtain ⟨hlen, hne, hidx, hbins, hoth⟩ := h
  obtain ⟨s, rest, rfl⟩ : ∃ s rest, segs = s :: rest := by
    cases segs with
    | nil => exact absurd rfl hne
    | cons a t => exact ⟨a, t, rfl⟩
  have hg0 : 0 < g := by omega
  have hidx' : r.index = rest.length % g := by simpa using hidx
  have hbins' : ∀ k, k < g → r.bins.getD ((rest.length + g - k) % g) 0 = (s :: rest).getD k 0 := by
    intro k hk
    have := hbins k hk
    simpa using this
  have hnew : (r.index + 1) % r.bins.length = (rest.length + 1) % g := by
    rw [hlen, hidx']
    conv_rhs => rw [Nat.add_mod]
    rw [Nat.mod_eq_of_lt (show 1 < g by omega)]
  have hnewlt : (rest.length + 1) % g < g := Nat.mod_lt _ hg0
  have hnewpos : (rest.length + 1 + g - 0) % g = (rest.length + 1) % g := by
    simp [Nat.add_mod_right]
  have holdpos : (rest.length + g - 0) % g = r.index := by
    rw [hidx']
    simp [Nat.add_mod_right]
  have hvpos : (rest.length + g - (g - 1)) % g = (rest.length + 1) % g := by
    congr 1
    omega
  have hine : r.index ≠ (rest.length + 1) % g := by
    intro hcontra
    rw [← holdpos, ← hvpos] at hcontra
    have := ringPos_inj g rest.length hg0 (by omega) hcontra
    omega
  refine ⟨?_, by simp [applySeg], ?_, ?_, ?_⟩
  · simp [RateCounter.rotate, hlen]
  · simp only [RateCounter.rotate, applySeg, hnew]
    simp
  · intro k hk
    simp only [applySeg, List.length_cons, Nat.add_sub_cancel]
    rw [RateCounter.rotate]
    simp only [hnew]
    cases k with
    | zero =>
      simp only [Nat.sub_zero]
      rw [Nat.add_mod_right]
      rw [getD_set_eq r.bins _ (by rw [hlen]; exact hnewlt)]
      rfl
    | succ k =>
      have harith : rest.length + 1 + g - (k + 1) = rest.length + g - k := by omega
      rw [harith]
      have hkg : k < g := by omega
      have hnep : (rest.length + 1) % g ≠ (rest.length + g - k) % g := by
        intro hcontra
        rw [← hvpos] at hcontra
        have := ringPos_inj g rest.length (by omega) hkg hcontra
        omega
      rw [getD_set_ne r.bins _ _ hnep]
      have := hbins' k hkg
      simpa using this
  · rw [RateCounter.rotate]
    simp only [hnew]
    have hb1 : (r.bins.set ((rest.length + 1) % g) 0).getD r.index 0 = r.bins.getD r.index 0 := by
      exact getD_set_ne r.bins _ r.index (fun he => hine he.symm) 0 0
    have hb0 : r.bins.getD r.index 0 = s := by
      have h0 := hbins' 0 hg0
      simp only [Nat.sub_zero] at h0
      rw [Nat.add_mod_right, ← hidx'] at h0
      simpa using h0
    have hbv : r.bins.getD ((rest.length + 1) % g) 0 = (s :: rest).getD (g - 1) 0 := by
      rw [← hvpos]
      exact hbins' (g - 1) (by omega)
    have hshift := sum_take_shift (s :: rest) (g - 1)
    simp only [applySeg, List.drop_succ_cons, List.drop_zero] at hoth ⊢
    rw [hb1, hb0, hbv, hoth]
    have htake : (s :: rest).take (g - 1 + 1) = s :: rest.take (g - 1) := by
      simp [List.take_succ_cons]
    simp only [List.drop_succ_cons, List.drop_zero, List.getD_cons_zero] at hshift
    omega

/-- One step of the sequential model preserves the ring-rotation
invariant. -/
theorem rcinv_step (g : Nat) (hg : 2 ≤ g) (segs : List Int) (r : RateCounter) (op : Op)
    (h : RCInv g segs r) : RCInv g (applySeg segs op) (r.step op) := by
  cases op with
  | add v => exact rcinv_add g hg segs r v h
  | tick => exact rcinv_tick g hg segs r h

/-- Running any operation sequence preserves the ring-rotation invariant,
with the segment history advanced accordingly. -/
theorem rcinv_run (g : Nat) (hg : 2 ≤ g) (ops : List Op) :
    ∀ segs r, RCInv g segs r → RCInv g (ops.foldl applySeg segs) (runOps r ops) := by
  induction ops with
  | nil =>
    intro segs r h
    simpa [runOps] using h
  | cons op rest ih =>
    intro segs r h
    have hstep := rcinv_step g hg segs r op h
    have := ih (applySeg segs op) (r.step op) hstep
    simpa [runOps] using this

/-- From the invariant: `Rate` is the sum of the `g` most recent
segments. -/
theorem rate_of_inv (g : Nat) (hg : 2 ≤ g) (segs : List Int) (r : RateCounter)
    (h : RCInv g segs r) : r.Rate = (segs.take g).sum := by
  obtain ⟨hlen, hne, hidx, hbins, hoth⟩ := h
  have h0 := hbins 0 (by omega)
  simp only [Nat.sub_zero] at h0
  rw [Nat.add_mod_right, ← hidx] at h0
  have hs := sum_take_head segs (g - 1)
  rw [show (g - 1) + 1 = g by omega] at hs
  rw [RateCounter.Rate, hoth, h0, hs]
  omega

/-- Main sequential-model lemma: from a fresh windowed counter with `g ≥ 2`
buckets, after any interleaving of `Add` calls and rotation ticks, `Rate`
equals the sum of the deltas added during the most recent `g` tick
segments. -/
theorem rate_windowSum (g : Nat) (hg : 2 ≤ g) (ops : List Op) :
    (runOps (freshRC g) ops).Rate = windowSum g ops := by
  have h := rcinv_run g hg ops [0] (freshRC g) (rcinv_init g)
  exact rate_of_inv g hg _ _ h

/-- The digit list of `n` evaluates back to `n`. -/
theorem ofDigits_natDigits (n : Nat) : ofDigitsLE (natDigitsLE n) = n := by
  induction n using Nat.strong_induction_on with
  | _ n ih =>
    rw [natDigitsLE_eq]
    by_cases hn : n = 0
    · subst hn
      rfl
    · rw [if_neg hn]
      have hdiv : n / 10 < n := Nat.div_lt_self (Nat.pos_of_ne_zero hn) (by decide)
      simp only [ofDigitsLE, List.foldr_cons]
      have hrec := ih (n / 10) hdiv
      simp only [ofDigitsLE] at hrec
      rw [hrec]
      omega

/-- Every extracted digit is below 10. -/
theorem natDigits_lt (n : Nat) : ∀ d ∈ natDigitsLE n, d < 10 := by
  induction n using Nat.strong_induction_on with
  | _ n ih =>
    rw [natDigitsLE_eq]
    by_cases hn : n = 0
    · simp [hn]
    · rw [if_neg hn]
      intro d hd
      rcases List.mem_cons.mp hd with h | h
      · subst h
        exact Nat.mod_lt _ (by decide)
      · exact ih (n / 10) (Nat.div_lt_self (Nat.pos_of_ne_zero hn) (by decide)) d h

/-- A nonzero number has at least one digit. -/
theorem natDigits_ne_nil (n : Nat) (hn : n ≠ 0) : natDigitsLE n ≠ [] := by
  rw [natDigitsLE_eq, if_neg hn]
  simp

/-- The most significant digit of a nonzero number is nonzero. -/
theorem natDigits_getLast?_ne (n : Nat) : n ≠ 0 → ∀ d, (natDigitsLE n).getLast? = some d → d ≠ 0 := by
  induction n using Nat.strong_induction_on with
  | _ n ih =>
    intro hn d hd
    rw [natDigitsLE_eq, if_neg hn] at hd
    by_cases h10 : n / 10 = 0
    · rw [h10] at hd
      have hz : natDigitsLE 0 = [] := rfl
      rw [hz] at hd
      simp [List.getLast?] at hd
      omega
    · obtain ⟨c, cs, hcc⟩ : ∃ c cs, natDigitsLE (n / 10) = c :: cs := by
        cases h : natDigitsLE (n / 10) with
        | nil => exact absurd h (natDigits_ne_nil _ h10)
        | cons c cs => exact ⟨c, cs, rfl⟩
      rw [hcc, List.getLast?_cons_cons, ← hcc] at hd
      exact ih (n / 10) (Nat.div_lt_self (Nat.pos_of_ne_zero hn) (by decide)) h10 d hd

/-- Character code of a digit character. -/
theorem digitChar_toNat (d : Nat) (h : d < 10) : (digitChar d).toNat = 48 + d := by
  interval_cases d <;> decide

/-- Digit characters satisfy the digit predicate. -/
theorem digitChar_isDigit (d : Nat) (h : d < 10) : isDigitChar (digitChar d) = true := by
  interval_cases d <;> decide

/-- Digit characters are never the minus sign. -/
theorem digitChar_ne_dash (d : Nat) (h : d < 10) : digitChar d ≠ '-' := by
  interval_cases d <;> decide

/-- Nonzero digits never render as the zero character. -/
theorem digitChar_ne_zeroChar (d : Nat) (h : d < 10) (h0 : d ≠ 0) : digitChar d ≠ '0' := by
  interval_cases d
  · exact absurd rfl h0
  all_goals decide

/-- Folding the parser's accumulator over a rendered digit list recovers
the place-value expansion. -/
theorem digitsVal_rev (ds : List Nat) (h : ∀ d ∈ ds, d < 10) : ∀ a : Nat,
    List.foldl (fun a c => a * 10 + (c.toNat - 48)) a ((ds.reverse).map digitChar) =
      a * 10 ^ ds.length + ofDigitsLE ds := by
  induction ds with
  | nil =>
    intro a
    simp [ofDigitsLE]
  | cons d ds ih =>
    intro a
    have hmem : ∀ x ∈ ds, x < 10 := fun x hx => h x (List.mem_cons_of_mem _ hx)
    have hd : d < 10 := h d (List.mem_cons_self _ _)
    simp only [List.reverse_cons, List.map_append, List.foldl_append, List.map_cons,
      List.map_nil]
    rw [ih hmem a]
    simp only [List.foldl_cons, List.foldl_nil]
    rw [digitChar_toNat d hd, Nat.add_sub_cancel_left]
    simp only [ofDigitsLE, List.foldr_cons, List.length_cons]
    rw [pow_succ]
    ring

/-- Parsing inverts the natural-number renderer. -/
theorem parseNat_format (n : Nat) : parseNatChars (formatNatChars n) = some n := by
  by_cases hn : n = 0
  · subst hn
    decide
  · rw [formatNatChars, if_neg hn]
    have hne : natDigitsLE n ≠ [] := natDigits_ne_nil n hn
    have hmem := natDigits_lt n
    have hall : ((natDigitsLE n).reverse.map digitChar).all isDigitChar = true := by
      rw [List.all_eq_true]
      intro c hc
      rw [List.mem_map] at hc
      obtain ⟨d, hd, rfl⟩ := hc
      rw [List.mem_reverse] at hd
      exact digitChar_isDigit d (hmem d hd)
    have hne2 : (natDigitsLE n).reverse.map digitChar ≠ [] := by
      simp [hne]
    rw [parseNatChars, if_pos ⟨hne2, hall⟩]
    have hval := digitsVal_rev (natDigitsLE n) hmem 0
    simp only [digitsVal]
    rw [hval, ofDigits_natDigits n]
    simp

/-- Structure of the rendering of a nonzero natural number: a nonzero
leading digit followed by digit characters. -/
theorem formatNat_head (n : Nat) (hn : n ≠ 0) :
    ∃ d es, formatNatChars n = digitChar d :: es ∧ d < 10 ∧ d ≠ 0 ∧
      es.all isDigitChar = true := by
  rw [formatNatChars, if_neg hn]
  obtain ⟨d0, es0, hrev⟩ : ∃ d0 es0, (natDigitsLE n).reverse = d0 :: es0 := by
    cases h : (natDigitsLE n).reverse with
    | nil =>
      have : natDigitsLE n = [] := by simpa using congrArg List.reverse h
      exact absurd this (natDigits_ne_nil n hn)
    | cons c cs => exact ⟨c, cs, rfl⟩
  have hmem0 : d0 ∈ natDigitsLE n := by
    rw [← List.mem_reverse, hrev]
    exact List.mem_cons_self _ _
  refine ⟨d0, es0.map digitChar, by rw [hrev]; simp, natDigits_lt n d0 hmem0, ?_, ?_⟩
  · have hlast : (natDigitsLE n).getLast? = some d0 := by
      rw [← List.head?_reverse, hrev]
      rfl
    exact natDigits_getLast?_ne n hn d0 hlast
  · rw [List.all_eq_true]
    intro c hc
    rw [List.mem_map] at hc
    obtain ⟨d, hd, rfl⟩ := hc
    have : d ∈ natDigitsLE n := by
      rw [← List.mem_reverse, hrev]
      exact List.mem_cons_of_mem _ hd
    exact digitChar_isDigit d (natDigits_lt n d this)

/-- Unfolding of the parser on an explicit character list. -/
theorem parseIntStr_mk_cons (c : Char) (rest : List Char) :
    parseIntStr (String.mk (c :: rest)) =
      if c = '-' then (parseNatChars rest).map (fun n => -Int.ofNat n)
      else (parseNatChars (c :: rest)).map Int.ofNat := rfl

/-- The parser inverts `FormatInt` on every integer. -/
theorem parse_FormatInt (v : Int) : parseIntStr (FormatInt v) = some v := by
  rw [FormatInt]
  by_cases hv : v < 0
  · rw [if_pos hv, parseIntStr_mk_cons, if_pos rfl, parseNat_format]
    simp only [Option.map_some']
    congr 1
    simp only [Int.ofNat_eq_coe]
    omega
  · rw [if_neg hv]
    by_cases hz : v = 0
    · subst hz
      decide
    · have hn : v.toNat ≠ 0 := by omega
      obtain ⟨d, es, hform, hdlt, _, _⟩ := formatNat_head v.toNat hn
      rw [hform, parseIntStr_mk_cons, if_neg (digitChar_ne_dash d hdlt), ← hform,
        parseNat_format]
      rw [Option.map_some']
      congr 1
      simp only [Int.ofNat_eq_coe]
      omega

/-- `FormatInt` always renders a canonical decimal string. -/
theorem canonical_FormatInt (v : Int) : isCanonicalDecimal (FormatInt v).data = true := by
  rw [FormatInt]
  by_cases hv : v < 0
  · rw [if_pos hv]
    have hn : (-v).toNat ≠ 0 := by omega
    obtain ⟨d, es, hform, hdlt, hdne, hall⟩ := formatNat_head (-v).toNat hn
    show isCanonicalDecimal ('-' :: formatNatChars (-v).toNat) = true
    rw [isCanonicalDecimal, if_pos rfl, hform]
    have h1 : decBody (digitChar d :: es) = true := by
      rw [decBody]
      simp [digitChar_isDigit d hdlt, hall, digitChar_ne_zeroChar d hdlt hdne]
    have h2 : (digitChar d :: es) ≠ ['0'] := by
      intro hcontra
      have : digitChar d = '0' := by
        injection hcontra with h _
      exact digitChar_ne_zeroChar d hdlt hdne this
    simp [h1, h2]
  · rw [if_neg hv]
    by_cases hz : v = 0
    · subst hz
      decide
    · have hn : v.toNat ≠ 0 := by omega
      obtain ⟨d, es, hform, hdlt, hdne, hall⟩ := formatNat_head v.toNat hn
      show isCanonicalDecimal (formatNatChars v.toNat) = true
      rw [hform, isCanonicalDecimal, if_neg (digitChar_ne_dash d hdlt), decBody]
      simp [digitChar_isDigit d hdlt, hall, digitChar_ne_zeroChar d hdlt hdne]

/-- Advancing the index modulo a ring of at least two buckets always moves
to a different bucket. -/
theorem succ_mod_ne (g i : Nat) (hg : 2 ≤ g) : (i + 1) % g ≠ i := by
  intro h
  rcases Nat.lt_or_ge i g with hlt | hge
  · rcases Nat.lt_or_ge (i + 1) g with hlt2 | hge2
    · rw [Nat.mod_eq_of_lt hlt2] at h
      omega
    · have hig : i + 1 = g := by omega
      rw [hig, Nat.mod_self] at h
      omega
  · have := Nat.mod_lt (i + 1) (show 0 < g by omega)
    omega

/-- With no rotation task, elapsed time never changes the state. -/
theorem rcTimeStep_iterate_false (n : Nat) (p : RateCounter × Bool) (h : p.2 = false) :
    rcTimeStep^[n] p = p := by
  induction n with
  | zero => rfl
  | succ n ih =>
    rw [Function.iterate_succ_apply]
    have hstep : rcTimeStep p = p := by
      simp [rcTimeStep, h]
    rw [hstep, ih]

/-- Repeated `Add(1)` on the degenerate single-bucket counter accumulates
exactly the call count. -/
theorem addOne_iterate_degenerate (k : Nat) :
    (fun c => RateCounter.Add c 1)^[k] { others := 0, bins := [0], index := 0 } =
      { others := 0, bins := [(k : Int)], index := 0 } := by
  induction k with
  | zero => rfl
  | succ k ih =>
    have hcast : ((k + 1 : Nat) : Int) = (k : Int) + 1 := by push_cast; ring
    rw [Function.iterate_succ_apply', ih, hcast]
    simp [RateCounter.Add]

/-- Effect of a run of `Add` calls on a `MovingAverage`: carries and index
untouched, the active bucket gains the total and the sample count. -/
theorem addList_state (vs : List Int) : ∀ a : MovingAverage,
    a.index < a.sums.length → a.index < a.counts.length →
    (addList a vs).otherSums = a.otherSums ∧
    (addList a vs).otherCounts = a.otherCounts ∧
    (addList a vs).index = a.index ∧
    (addList a vs).sums.getD a.index 0 = a.sums.getD a.index 0 + vs.sum ∧
    (addList a vs).counts.getD a.index 0 = a.counts.getD a.index 0 + vs.length := by
  induction vs with
  | nil =>
    intro a h1 h2
    simp [addList]
  | cons v vs ih =>
    intro a h1 h2
    have hcons : addList a (v :: vs) = addList (a.Add v) vs := by
      simp [addList]
    have hidx : (a.Add v).index = a.index := rfl
    have hs1 : (a.Add v).index < (a.Add v).sums.length := by
      simp [MovingAverage.Add, h1]
    have hs2 : (a.Add v).index < (a.Add v).counts.length := by
      simp [MovingAverage.Add, h2]
    obtain ⟨o1, o2, o3, o4, o5⟩ := ih (a.Add v) hs1 hs2
    rw [hidx] at o3 o4 o5
    have hsum : (a.Add v).sums.getD a.index 0 = a.sums.getD a.index 0 + v := by
      simp only [MovingAverage.Add]
      exact getD_set_eq a.sums a.index h1 _ 0
    have hcnt : (a.Add v).counts.getD a.index 0 = a.counts.getD a.index 0 + 1 := by
      simp only [MovingAverage.Add]
      exact getD_set_eq a.counts a.index h2 _ 0
    refine ⟨?_, ?_, ?_, ?_, ?_⟩
    · rw [hcons, o1]; rfl
    · rw [hcons, o2]; rfl
    · rw [hcons, o3]
    · rw [hcons, o4, hsum, List.sum_cons]; ring
    · rw [hcons, o5, hcnt, List.length_cons]; push_cast; ring

/-- `Add(1)`-only runs (any interleaving of producers) increase `Rate` by
exactly the number of calls. -/
theorem addsOnly_rate (ops : List Op) : ∀ r : RateCounter,
    (∀ op ∈ ops, op = Op.add 1) → r.index < r.bins.length →
    (runOps r ops).Rate = r.Rate + ops.length := by
  induction ops with
  | nil =>
    intro r _ _
    simp [runOps]
  | cons op rest ih =>
    intro r hops hidx
    have hop : op = Op.add 1 := hops op (List.mem_cons_self _ _)
    subst hop
    have hcons : runOps r (Op.add 1 :: rest) = runOps (r.Add 1) rest := by
      simp [runOps, RateCounter.step]
    have hidx2 : (r.Add 1).index < (r.Add 1).bins.length := by
      simp [RateCounter.Add, hidx]
    have hrate : (r.Add 1).Rate = r.Rate + 1 := by
      simp only [RateCounter.Rate, RateCounter.Add]
      rw [getD_set_eq r.bins r.index hidx]
      ring
    rw [hcons, ih (r.Add 1) (fun op h => hops op (List.mem_cons_of_mem _ h)) hidx2, hrate,
      List.length_cons]
    push_cast
    ring

/-- A run of ticks alone prepends that many empty segments. -/
theorem segs_replicate_tick (n : Nat) : ∀ segs : List Int,
    (List.replicate n Op.tick).foldl applySeg segs = List.replicate n 0 ++ segs := by
  induction n with
  | zero =>
    intro segs
    simp
  | succ n ih =>
    intro segs
    rw [List.replicate_succ, List.foldl_cons, ih (applySeg segs Op.tick)]
    show List.replicate n 0 ++ (0 :: segs) = List.replicate (n + 1) 0 ++ segs
    rw [List.replicate_succ' n 0, List.append_assoc]
    rfl

/-- In non-degenerate mode the constructor returns the fresh ring state. -/
theorem construct_windowed (i g : Int) (hi : 0 < i) (hg : 2 ≤ g) :
    (NewRateCounterWithGranularity i g).1 = freshRC g.toNat := by
  rw [NewRateCounterWithGranularity, if_neg (by omega : ¬(i ≤ 0 ∨ g ≤ 1))]
  rfl

/-- C1: for every `RateCounter` and `MovingAverage` the aggregate read is
the active bucket plus the carried-over aggregate, and in the sequential
model of `Add` calls interleaved with rotation steps, `Rate()` equals the
sum of all deltas added during the most recent `granularity` rotation-tick
segments (older contributions are excluded). -/
theorem claim1_rate_aggregate_and_window (i g : Int) (hi : 0 < i) (hg : 2 ≤ g)
    (ops : List Op) :
    (∀ r : RateCounter, r.Rate = r.others + r.bins.getD r.index 0) ∧
    (∀ a : MovingAverage,
      a.Average = if a.counts.getD a.index 0 + a.otherCounts = 0 then 0
        else (a.sums.getD a.index 0 + a.otherSums).tdiv
          (a.counts.getD a.index 0 + a.otherCounts)) ∧
    (runOps (NewRateCounterWithGranularity i g).1 ops).Rate = windowSum g.toNat ops := by
  refine ⟨fun r => rfl, fun a => rfl, ?_⟩
  rw [construct_windowed i g hi hg, rate_windowSum g.toNat (by omega) ops]

/-- Witness for C1 at `interval = 1`, `granularity = 2`, one `Add(5)`. -/
theorem claim1_witness :
    ((0 : Int) < 1 ∧ (2 : Int) ≤ 2) ∧
    (runOps (NewRateCounterWithGranularity 1 2).1 [Op.add 5]).Rate =
      windowSum (2 : Int).toNat [Op.add 5] :=
  ⟨⟨by decide, by decide⟩,
    (claim1_rate_aggregate_and_window 1 2 (by decide) (by decide) [Op.add 5]).2.2⟩

/-- C2: construction with `interval ≤ 0` or `granularity ≤ 1` yields the
degenerate cumulative mode: one bucket, no rotation task, and after any
`k` sequential `Add(1)` calls followed by any number of elapsed time
units, `Rate()` still returns `k`. -/
theorem claim2_degenerate_cumulative (interval gran : Int)
    (h : interval ≤ 0 ∨ gran ≤ 1) (k n : Nat) :
    (NewRateCounterWithGranularity interval gran).2 = false ∧
    (NewRateCounterWithGranularity interval gran).1.bins.length = 1 ∧
    ((rcTimeStep^[n]
        ((fun c => RateCounter.Add c 1)^[k] (NewRateCounterWithGranularity interval gran).1,
          (NewRateCounterWithGranularity interval gran).2)).1).Rate = (k : Int) := by
  have hC : NewRateCounterWithGranularity interval gran =
      ({ others := 0, bins := [0], index := 0 }, false) := by
    rw [NewRateCounterWithGranularity, if_pos h]
  rw [hC]
  refine ⟨rfl, rfl, ?_⟩
  show ((rcTimeStep^[n]
      ((fun c => RateCounter.Add c 1)^[k] { others := 0, bins := [0], index := 0 },
        false)).1).Rate = (k : Int)
  rw [addOne_iterate_degenerate k, rcTimeStep_iterate_false n _ rfl]
  simp [RateCounter.Rate]

/-- Witness for C2: 37 `Add(1)` calls, then five elapsed time units. -/
theorem claim2_witness :
    ((0 : Int) ≤ 0 ∨ (1 : Int) ≤ 1) ∧
    ((rcTimeStep^[5]
        ((fun c => RateCounter.Add c 1)^[37] (NewRateCounterWithGranularity 0 1).1,
          (NewRateCounterWithGranularity 0 1).2)).1).Rate = ((37 : Nat) : Int) :=
  ⟨Or.inl (by decide), (claim2_degenerate_cumulative 0 1 (Or.inl (by decide)) 37 5).2.2⟩

/-- C3: the code's rotation step equals the specification's four-step tick
procedure, because the remembered index differs from the new active index
whenever the ring has at least two buckets, so reading the vacated bucket
after the swap equals reading it before. -/
theorem claim3_rotate_equiv (r : RateCounter) (a : MovingAverage)
    (hr : 2 ≤ r.bins.length) (ha : 2 ≤ a.sums.length) :
    r.rotate = r.rotateSpec ∧ a.rotate = a.rotateSpec := by
  constructor
  · have hne : (r.index + 1) % r.bins.length ≠ r.index := succ_mod_ne _ _ hr
    simp only [RateCounter.rotate, RateCounter.rotateSpec]
    rw [getD_set_ne r.bins ((r.index + 1) % r.bins.length) r.index hne 0 0]
  · have hne : (a.index + 1) % a.sums.length ≠ a.index := succ_mod_ne _ _ ha
    simp only [MovingAverage.rotate, MovingAverage.rotateSpec]
    rw [getD_set_ne a.sums ((a.index + 1) % a.sums.length) a.index hne 0 0,
      getD_set_ne a.counts ((a.index + 1) % a.sums.length) a.index hne 0 0]

/-- Witness for C3 on concrete two-bucket states. -/
theorem claim3_witness :
    (2 ≤ (RateCounter.mk 7 [3, 4] 0).bins.length ∧
      2 ≤ (MovingAverage.mk 1 2 [5, 6] [1, 2] 1).sums.length) ∧
    ((RateCounter.mk 7 [3, 4] 0).rotate = (RateCounter.mk 7 [3, 4] 0).rotateSpec ∧
      (MovingAverage.mk 1 2 [5, 6] [1, 2] 1).rotate =
        (MovingAverage.mk 1 2 [5, 6] [1, 2] 1).rotateSpec) :=
  ⟨⟨by decide, by decide⟩, claim3_rotate_equiv _ _ (by decide) (by decide)⟩

/-- C4: windowed eviction — with granularity `g ≥ 2`, after a single
`Add(1)` followed by at least `g` rotation steps and no further adds,
`Rate()` returns 0: the stale contribution is fully evicted. -/
theorem claim4_eviction (i g : Int) (hi : 0 < i) (hg : 2 ≤ g) (n : Nat)
    (hn : g.toNat ≤ n) :
    (runOps (NewRateCounterWithGranularity i g).1
      (Op.add 1 :: List.replicate n Op.tick)).Rate = 0 := by
  rw [construct_windowed i g hi hg, rate_windowSum g.toNat (by omega)]
  rw [windowSum, segsOf, List.foldl_cons]
  have h1 : applySeg [0] (Op.add 1) = [(1 : Int)] := by
    simp [applySeg]
  rw [h1, segs_replicate_tick n [1]]
  rw [List.take_append_of_le_length (by simpa using hn)]
  rw [List.take_replicate]
  simp [List.sum_replicate]

/-- Witness for C4 at `interval = 1`, `granularity = 4`, four ticks. -/
theorem claim4_witness :
    ((0 : Int) < 1 ∧ (2 : Int) ≤ 4 ∧ (4 : Int).toNat ≤ 4) ∧
    (runOps (NewRateCounterWithGranularity 1 4).1
      (Op.add 1 :: List.replicate 4 Op.tick)).Rate = 0 :=
  ⟨⟨by decide, by decide, by decide⟩,
    claim4_eviction 1 4 (by decide) (by decide) 4 (by decide)⟩

/-- C5: `Add(value)` adds `value` to the active bucket's sum and exactly 1
to its count, and with no rotation intervening `Average()` is the
truncating integer division of the total by the sample count. -/
theorem claim5_average (i g : Int) (vs : List Int) (hvs : vs ≠ []) :
    (∀ (a : MovingAverage) (v : Int),
      a.index < a.sums.length → a.index < a.counts.length →
      (a.Add v).sums.getD a.index 0 = a.sums.getD a.index 0 + v ∧
      (a.Add v).counts.getD a.index 0 = a.counts.getD a.index 0 + 1) ∧
    (addList (NewMovingAverageWithGranularity i g).1 vs).Average =
      vs.sum.tdiv vs.length := by
  constructor
  · intro a v h1 h2
    constructor
    · simp only [MovingAverage.Add]
      exact getD_set_eq a.sums a.index h1 _ 0
    · simp only [MovingAverage.Add]
      exact getD_set_eq a.counts a.index h2 _ 0
  · have hfresh : (NewMovingAverageWithGranularity i g).1.index = 0 ∧
        (NewMovingAverageWithGranularity i g).1.otherSums = 0 ∧
        (NewMovingAverageWithGranularity i g).1.otherCounts = 0 ∧
        0 < (NewMovingAverageWithGranularity i g).1.sums.length ∧
        0 < (NewMovingAverageWithGranularity i g).1.counts.length ∧
        (NewMovingAverageWithGranularity i g).1.sums.getD 0 0 = 0 ∧
        (NewMovingAverageWithGranularity i g).1.counts.getD 0 0 = 0 := by
      by_cases hc : i ≤ 0 ∨ g ≤ 1
      · rw [NewMovingAverageWithGranularity, if_pos hc]
        exact ⟨rfl, rfl, rfl, by decide, by decide, rfl, rfl⟩
      · rw [NewMovingAverageWithGranularity, if_neg hc]
        have hg2 : 0 < g.toNat := by omega
        exact ⟨rfl, rfl, rfl, by simpa using hg2, by simpa using hg2,
          getD_replicate_zero _ _, getD_replicate_zero _ _⟩
    obtain ⟨hidx, hos, hoc, hsl, hcl, hsz, hcz⟩ := hfresh
    obtain ⟨p1, p2, p3, p4, p5⟩ :=
      addList_state vs (NewMovingAverageWithGranularity i g).1
        (by rw [hidx]; exact hsl) (by rw [hidx]; exact hcl)
    rw [hidx] at p4 p5
    have hlen : ((vs.length : Nat) : Int) ≠ 0 := by
      have : vs.length ≠ 0 := fun hz => hvs (List.eq_nil_of_length_eq_zero hz)
      omega
    simp only [MovingAverage.Average, p3, hidx, p4, p5, p1, p2, hos, hoc, hsz, hcz,
      add_zero, zero_add]
    rw [if_neg hlen]

/-- Witness for C5: `Add(10)`, `Add(20)`, `Add(30)` average to 20. -/
theorem claim5_witness :
    (([10, 20, 30] : List Int) ≠ []) ∧
    (addList (NewMovingAverageWithGranularity 0 1).1 [10, 20, 30]).Average = 20 := by
  constructor
  · decide
  · have h := (claim5_average 0 1 [10, 20, 30] (by decide)).2
    rw [h]
    decide

/-- C6: `Average()` never divides by zero — when the effective count is 0
it returns 0, and a freshly constructed average returns 0. -/
theorem claim6_zero_guard (a : MovingAverage) (i g : Int)
    (h : a.counts.getD a.index 0 + a.otherCounts = 0) :
    a.Average = 0 ∧ (NewMovingAverageWithGranularity i g).1.Average = 0 := by
  constructor
  · simp only [MovingAverage.Average]
    rw [if_pos h]
  · by_cases hc : i ≤ 0 ∨ g ≤ 1
    · simp [MovingAverage.Average, NewMovingAverageWithGranularity, if_pos hc]
    · simp [MovingAverage.Average, NewMovingAverageWithGranularity, if_neg hc,
        getD_replicate_zero]

/-- Witness for C6: a zero-count state with a nonzero sums cell still
averages to 0, as does a fresh instance. -/
theorem claim6_witness :
    ((MovingAverage.mk 5 0 [3] [0] 0).counts.getD (MovingAverage.mk 5 0 [3] [0] 0).index 0 +
        (MovingAverage.mk 5 0 [3] [0] 0).otherCounts = 0) ∧
    ((MovingAverage.mk 5 0 [3] [0] 0).Average = 0 ∧
      (NewMovingAverageWithGranularity 0 1).1.Average = 0) :=
  ⟨by decide, claim6_zero_guard (MovingAverage.mk 5 0 [3] [0] 0) 0 1 (by decide)⟩

/-- C7: the text rendering of every attainable `Rate()`/`Average()` value
is a canonical base-10 integer string — no leading zeros, never empty,
never a bare sign, never scientific notation — and it parses back to
exactly that value. -/
theorem claim7_text_roundtrip (V : Int) (r : RateCounter) (a : MovingAverage) :
    parseIntStr (FormatInt V) = some V ∧
    isCanonicalDecimal (FormatInt V).data = true ∧
    parseIntStr (RateCounter.String r) = some r.Rate ∧
    isCanonicalDecimal (RateCounter.String r).data = true ∧
    parseIntStr (MovingAverage.String a) = some a.Average ∧
    isCanonicalDecimal (MovingAverage.String a).data = true :=
  ⟨parse_FormatInt V, canonical_FormatInt V, parse_FormatInt r.Rate,
    canonical_FormatInt r.Rate, parse_FormatInt a.Average, canonical_FormatInt a.Average⟩

/-- C8: concurrent add conservation — any sequential interleaving of
`Add(1)` calls totalling 10000 (in particular any schedule of 10 producers
of 1000 calls each), with no rotation during the run, yields `Rate()`
exactly 10000: no update is lost. -/
theorem claim8_concurrent_conservation (i g : Int) (ops : List Op)
    (hops : ∀ op ∈ ops, op = Op.add 1) (hlen : ops.length = 10000) :
    (runOps (NewRateCounterWithGranularity i g).1 ops).Rate = 10000 := by
  have hmain : ∀ r : RateCounter, r.index < r.bins.length → r.Rate = 0 →
      (runOps r ops).Rate = 10000 := by
    intro r h1 h2
    rw [addsOnly_rate ops r hops h1, h2, hlen]
    norm_num
  by_cases hc : i ≤ 0 ∨ g ≤ 1
  · apply hmain
    · simp [NewRateCounterWithGranularity, if_pos hc]
    · simp [NewRateCounterWithGranularity, if_pos hc, RateCounter.Rate]
  · apply hmain
    · simp only [NewRateCounterWithGranularity, if_neg hc]
      simp
      omega
    · simp [NewRateCounterWithGranularity, if_neg hc, RateCounter.Rate,
        getD_replicate_zero]

/-- Witness for C8: the canonical schedule of 10000 `Add(1)` calls. -/
theorem claim8_witness :
    ((∀ op ∈ List.replicate 10000 (Op.add 1), op = Op.add 1) ∧
      (List.replicate 10000 (Op.add 1)).length = 10000) ∧
    (runOps (NewRateCounterWithGranularity 1000000000 32).1
      (List.replicate 10000 (Op.add 1))).Rate = 10000 :=
  ⟨⟨fun _ h => List.eq_of_mem_replicate h, by rw [List.length_replicate]⟩,
    claim8_concurrent_conservation 1000000000 32 _
      (fun _ h => List.eq_of_mem_replicate h) (by rw [List.length_replicate])⟩

/-- C9: `Add` validates nothing — every delta, including zero and negative
values, is added unchanged, so `Rate()` can be made negative and the
rendered string then carries a leading minus sign. -/
theorem claim9_no_validation (r : RateCounter) (d : Int) (h : r.index < r.bins.length) :
    (r.Add d).bins.getD r.index 0 = r.bins.getD r.index 0 + d ∧
    (NewCounter.1.Add (-1)).Rate = -1 ∧
    RateCounter.String (NewCounter.1.Add (-1)) = "-1" := by
  refine ⟨?_, by decide, by decide⟩
  simp only [RateCounter.Add]
  exact getD_set_eq r.bins r.index h _ 0

/-- Witness for C9 with a negative delta on a concrete state. -/
theorem claim9_witness :
    ((RateCounter.mk 2 [7] 0).index < (RateCounter.mk 2 [7] 0).bins.length) ∧
    ((RateCounter.mk 2 [7] 0).Add (-5)).bins.getD (RateCounter.mk 2 [7] 0).index 0 =
      (RateCounter.mk 2 [7] 0).bins.getD (RateCounter.mk 2 [7] 0).index 0 + (-5) :=
  ⟨by decide, (claim9_no_validation (RateCounter.mk 2 [7] 0) (-5) (by decide)).1⟩

/-- C10: the convenience constructors are definitionally the degenerate
case — `NewCounter` is `NewRateCounterWithGranularity(0, 1)` and
`NewAverage` is `NewMovingAverageWithGranularity(0, 1)`, producing a
single-bucket cumulative instance with no rotation task. -/
theorem claim10_convenience :
    NewCounter = NewRateCounterWithGranularity 0 1 ∧
    NewAverage = NewMovingAverageWithGranularity 0 1 ∧
    NewCounter.2 = false ∧ NewCounter.1.bins.length = 1 ∧
    NewAverage.2 = false ∧ NewAverage.1.sums.length = 1 ∧
    NewAverage.1.counts.length = 1 :=
  ⟨rfl, rfl, by decide, by decide, by decide, by decide, by decide⟩
